import Mathlib

/-!
Verification development for the syncopy compute-dispatch engine
(`syncopy/specest/compRoutines.py` and `syncopy/shared/dask_helpers.py`).

Python dictionaries are embedded as association lists in insertion order;
`{**a, **b}` becomes `dictUpdate a b`.  NumPy arrays of trial-definition
rows are embedded over `ℚ` (exact rational arithmetic standing in for
float64).  `np.allclose` on the `toi` spacing test is modelled as exact
equality of the rational steps.
-/

namespace Syncopy


/-- Embedding of Python dict assignment `d[k] = v`: if the key is present
its value is replaced in place, otherwise the pair is appended.  (Python
dicts never hold a key twice, so replacing the first occurrence is
faithful.) -/
def dictSet {K V : Type} [DecidableEq K] : List (K × V) → K → V → List (K × V)
  | [], k, v => [(k, v)]
  | p :: d, k, v => if p.1 = k then (k, v) :: d else p :: dictSet d k v

/-- Embedding of Python `{**d, **e}`: entries of `e` override entries of `d`. -/
def dictUpdate {K V : Type} [DecidableEq K] (d e : List (K × V)) :
    List (K × V) :=
  e.foldl (fun acc p => dictSet acc p.1 p.2) d

/-- The keys of an embedded dict. -/
def keysOf {K V : Type} (d : List (K × V)) : List K := d.map Prod.fst

/-- A metadata bundle as returned by `extract_md_group`: two dicts,
`dsets` and `attrs`, with string keys. -/
structure MDGroup (V : Type) where
  dsets : List (String × V)
  attrs : List (String × V)
deriving DecidableEq

/-- `extract_md_group` copies the attributes and datasets of an h5py
`metadata` group into a fresh standard dict; on the embedded bundle this
copy is the identity. -/
def extract_md_group {V : Type} (md : MDGroup V) : MDGroup V := md

/-- Embedding of `_merge_md_list`: returns `None` on the empty list,
otherwise folds `{**acc, **md}` over both sub-dicts, starting from empty
dicts. -/
def _merge_md_list {V : Type} (md_list : List (MDGroup V)) :
    Option (MDGroup V) :=
  match md_list with
  | [] => none
  | _ :: _ =>
    some (md_list.foldl
      (fun metadata md =>
        { dsets := dictUpdate metadata.dsets md.dsets,
          attrs := dictUpdate metadata.attrs md.attrs })
      { dsets := [], attrs := [] })

/-- Value the fold of `_merge_md_list` assigns to a key on one of the two
sub-dict components: the value from the last bundle of the list carrying
the key. -/
def mergedVal {K V : Type} [DecidableEq K] : List (List (K × V)) → K → Option V
  | [], _ => none
  | d :: ds, k =>
    match mergedVal ds k with
    | some v => some v
    | none => List.lookup k d

/-- Value a disjoint union of dicts assigns to a key: the value from the
unique dict of the list that carries the key. -/
def unionVal {K V : Type} [DecidableEq K] (ds : List (List (K × V))) (k : K) :
    Option V :=
  (ds.filterMap (fun d => List.lookup k d)).head?

/-- The per-dict invariant of a Python dict: each key appears once. -/
def NodupKeys {K V : Type} (d : List (K × V)) : Prop :=
  (keysOf d).Nodup

/-- Well-formedness of a bundle list as produced by Python: every bundle's
sub-dicts have pairwise distinct keys internally. -/
def WFBundles {V : Type} (l : List (MDGroup V)) : Prop :=
  ∀ md ∈ l, NodupKeys md.attrs ∧ NodupKeys md.dsets

/-- Pairwise key-disjointness of a list of dicts. -/
def DisjDicts {K V : Type} (ds : List (List (K × V))) : Prop :=
  ds.Pairwise (fun a b => ∀ k ∈ keysOf a, k ∉ keysOf b)

/-- Cross-bundle key disjointness, as guaranteed by the composite label
scheme: no attribute key and no dataset key occurs in two distinct
bundles of the list. -/
def DisjBundles {V : Type} (l : List (MDGroup V)) : Prop :=
  DisjDicts (l.map MDGroup.attrs) ∧ DisjDicts (l.map MDGroup.dsets)

instance {K V : Type} [DecidableEq K] (d : List (K × V)) :
    Decidable (NodupKeys d) := by
  unfold NodupKeys
  infer_instance

instance {V : Type} (l : List (MDGroup V)) : Decidable (WFBundles l) := by
  unfold WFBundles
  infer_instance

instance {K V : Type} [DecidableEq K] (ds : List (List (K × V))) :
    Decidable (DisjDicts ds) := by
  unfold DisjDicts
  infer_instance

instance {V : Type} (l : List (MDGroup V)) : Decidable (DisjBundles l) := by
  unfold DisjBundles
  infer_instance

def mdA : MDGroup ℤ := { dsets := [("da", 1)], attrs := [("aa", 2)] }

def mdB : MDGroup ℤ := { dsets := [("db", 3)], attrs := [("ab", 4)] }

def mdC : MDGroup ℤ := { dsets := [("dc", 5)], attrs := [("ac", 6)] }

def mdPre : MDGroup ℤ := { dsets := [("dk", 1)], attrs := [("ak", 2)] }

def mdOver : MDGroup ℤ := { dsets := [("dk", 3)], attrs := [("ak", 4)] }

def akKey : String := "ak"

def dkKey : String := "dk"

/-- One physical extent (virtual-source file) of the Output Container:
whether it holds a `data` dataset, and its optional `metadata` group. -/
structure H5SourceFile (V : Type) where
  hasData : Bool
  metadata : Option (MDGroup V)
deriving DecidableEq

/-- An HDF5 result file: a primary `data` dataset may be present or
absent; when present it is either virtual (backed by the listed source
extents) or plain; the file root may carry a `metadata` group. -/
structure H5File (V : Type) where
  hasData : Bool
  isVirtual : Bool
  virtualSources : List (H5SourceFile V)
  rootMetadata : Option (MDGroup V)
deriving DecidableEq

/-- The error raised by `metadata_from_h5py_file` when the primary `data`
dataset is missing (`SPYValueError`). -/
inductive SPYError where
  | valueError
deriving DecidableEq

/-- Embedding of `metadata_from_h5py_file`: requires the `data` dataset;
for a virtual dataset it collects the `metadata` groups of all virtual
sources and merges them with `_merge_md_list` (which yields `None` on an
empty collection); for a plain dataset it extracts the root `metadata`
group if present, else returns `None`. -/
def metadata_from_h5py_file {V : Type} (f : H5File V) :
    Except SPYError (Option (MDGroup V)) :=
  if f.hasData then
    if f.isVirtual then
      Except.ok (_merge_md_list
        (f.virtualSources.filterMap
          (fun s => s.metadata.map extract_md_group)))
    else
      match f.rootMetadata with
      | some md => Except.ok (some (extract_md_group md))
      | none => Except.ok none
  else
    Except.error SPYError.valueError

/-- Whether an embedded call raised. -/
def raisesError {ε α : Type} : Except ε α → Bool
  | Except.error _ => true
  | Except.ok _ => false

def h5NoMd : H5File ℤ :=
  { hasData := true, isVirtual := true,
    virtualSources := [⟨true, none⟩, ⟨false, none⟩],
    rootMetadata := none }

/-- Modelled from the spec: `encode_unique_md_label` and
`decode_unique_md_label` live in `syncopy/shared/kwarg_decorators.py`,
which is not part of the sources; per the spec they are a deterministic,
reversible encoding of `(quantity-name, trial-index, invocation-index)`
into a single key, so the key space is modelled as that triple itself. -/
structure MDLabel where
  name : String
  trialIdx : ℕ
  callIdx : ℕ
deriving DecidableEq

/-- Modelled from the spec: the reversible label encoder (see `MDLabel`). -/
def encode_unique_md_label (name : String) (trialIdx callIdx : ℕ) : MDLabel :=
  ⟨name, trialIdx, callIdx⟩

/-- Modelled from the spec: the matching label decoder (see `MDLabel`). -/
def decode_unique_md_label (lab : MDLabel) : String × ℕ × ℕ :=
  (lab.name, lab.trialIdx, lab.callIdx)

/-- A metadata attribute value: per-channel peak counts (`n_peaks`), one
stacked 2-D array, or a Python list of 2-D arrays (the shape produced by
unpacking). -/
inductive MDVal where
  | counts (ns : List ℕ)
  | mat (rows : List (List ℚ))
  | mats (ms : List (List (List ℚ)))
deriving DecidableEq

def nPeaksName : String := "n_peaks"

def gaussianName : String := "gaussian_params"

def peakName : String := "peak_params"

/-- The entries of the FOOOF backend `details` dict that the packer
touches: per-channel peak counts and the per-channel
`gaussian_params`/`peak_params` 2-D arrays. -/
structure FooofDetails where
  n_peaks : List ℕ
  gaussian_params : List (List (List ℚ))
  peak_params : List (List (List ℚ))
deriving DecidableEq

/-- The same dict after packing: the two parameter quantities are single
stacked 2-D arrays. -/
structure FooofPacked where
  n_peaks : List ℕ
  gaussian_params : List (List ℚ)
  peak_params : List (List ℚ)
deriving DecidableEq

/-- Embedding of `pack_singletrial_metadata_fooof_into_hdf5`:
`np.vstack` over the per-channel row lists is their concatenation. -/
def pack_singletrial_metadata_fooof_into_hdf5 (d : FooofDetails) :
    FooofPacked :=
  { n_peaks := d.n_peaks,
    gaussian_params := d.gaussian_params.flatten,
    peak_params := d.peak_params.flatten }

/-- Python row slice `m[a:b, :]`. -/
def arrSlice (a b : ℕ) (m : List (List ℚ)) : List (List ℚ) :=
  (m.drop a).take (b - a)

/-- The slicing loop of `unpack_alltrials_metadata_fooof_from_hdf5`,
threaded exactly like the source: `start_idx` is initialised to 0 before
the loop and the loop body never advances it (each step hands back
`start_idx`, not `end_idx`). -/
def fooofSliceLoop (n_peaks : List ℕ) (m : List (List ℚ)) :
    List (List (List ℚ)) :=
  (n_peaks.foldl
    (fun (acc : List (List (List ℚ)) × ℕ) c =>
      let start_idx := acc.2
      let end_idx := start_idx + c
      (acc.1 ++ [arrSlice start_idx end_idx m], start_idx))
    ([], 0)).1

/-- Embedding of `unpack_alltrials_metadata_fooof_from_hdf5`: iterate over
the attribute keys; at each `n_peaks` attribute, slice the stacked
`gaussian_params` and `peak_params` arrays of the same
(trial, invocation) by the counts, then write both results back — the
source assigns both to the `gaussian_params` label, one after the other,
and never updates the `peak_params` label.  A missing companion key or an
unexpectedly typed value raises in the source, embedded as `none`. -/
def unpack_alltrials_metadata_fooof_from_hdf5
    (attrs : List (MDLabel × MDVal)) : Option (List (MDLabel × MDVal)) :=
  (keysOf attrs).foldl
    (fun cur lab =>
      match cur with
      | none => none
      | some cur =>
        if lab.name = nPeaksName then
          match List.lookup lab cur with
          | some (MDVal.counts n_peaks) =>
            let glab := encode_unique_md_label gaussianName lab.trialIdx lab.callIdx
            let plab := encode_unique_md_label peakName lab.trialIdx lab.callIdx
            match List.lookup glab cur, List.lookup plab cur with
            | some (MDVal.mat gin), some (MDVal.mat pin) =>
              let gout := fooofSliceLoop n_peaks gin
              let pout := fooofSliceLoop n_peaks pin
              some (dictSet (dictSet cur glab (MDVal.mats gout))
                glab (MDVal.mats pout))
            | _, _ => none
          | _ => none
        else some cur)
    (some attrs)

/-- The concrete failing input for C2: one trial (trial 0, invocation 0),
two channels with one detected peak each. -/
def fooofDetails0 : FooofDetails :=
  { n_peaks := [1, 1],
    gaussian_params := [[[1, 2, 3]], [[4, 5, 6]]],
    peak_params := [[[7, 8, 9]], [[10, 11, 12]]] }

/-- The merged attribute dict built from packing `fooofDetails0`. -/
def fooofAttrs0 : List (MDLabel × MDVal) :=
  [(encode_unique_md_label nPeaksName 0 0,
      MDVal.counts (pack_singletrial_metadata_fooof_into_hdf5 fooofDetails0).n_peaks),
   (encode_unique_md_label gaussianName 0 0,
      MDVal.mat (pack_singletrial_metadata_fooof_into_hdf5 fooofDetails0).gaussian_params),
   (encode_unique_md_label peakName 0 0,
      MDVal.mat (pack_singletrial_metadata_fooof_into_hdf5 fooofDetails0).peak_params)]

/-- One row of the Trial-Definition Table: start, stop, trigger offset
and the extra pass-through columns.  Entries live in `ℚ`, standing in for
the NumPy float64 row. -/
structure TrialRow where
  start : ℚ
  stop : ℚ
  offset : ℚ
  rest : List ℚ
deriving DecidableEq, Inhabited

/-- The shape of the `toi` parameter, mirroring the type dispatch of
`_make_trialdef`: a NumPy array of time points, a number (scalar overlap
percentage), or anything else (the `"all"` policy). -/
inductive Toi where
  | arr (pts : List ℚ)
  | num (x : ℚ)
  | all
deriving DecidableEq

/-- The slice of the `cfg` dict that `_make_trialdef` reads: `cfg["toi"]`
and `cfg["method_kwargs"]["nperseg"]/["noverlap"]`. -/
structure TrialdefCfg where
  toi : Toi
  nperseg : ℚ
  noverlap : ℚ
deriving DecidableEq

/-- `np.cumsum`: the list of prefix sums. -/
def cumsum (l : List ℚ) : List ℚ :=
  (List.range l.length).map (fun k => (l.take (k + 1)).sum)

/-- `np.diff` of a 1-D array. -/
def diffs (l : List ℚ) : List ℚ :=
  (l.zip l.tail).map (fun p => p.2 - p.1)

/-- Integer rounding with ties to even, as `np.round` uses. -/
def roundHalfToEven (q : ℚ) : ℤ :=
  if q - ⌊q⌋ < 1 / 2 then ⌊q⌋
  else if 1 / 2 < q - ⌊q⌋ then ⌊q⌋ + 1
  else if ⌊q⌋ % 2 = 0 then ⌊q⌋ else ⌊q⌋ + 1

/-- `np.round(·, 2)`: round to two decimal digits, ties to even. -/
def np_round2 (q : ℚ) : ℚ := (roundHalfToEven (q * 100) : ℚ) / 100

/-- Embedding of `_make_trialdef`.  Returns
`(trialdefinition, samplerate, warned)`; `warned` records whether the
non-uniform-spacing `SPYWarning` fired.  The result is `none` exactly
when the source raises: `tSteps[0]` on the empty `np.diff` of a `toi`
array with fewer than two points is an `IndexError`.  The in-place NumPy
column assignments become functional row updates applied in source
order; `np.allclose` on the spacing is modelled as exact equality of the
steps. -/
def _make_trialdef (cfg : TrialdefCfg) (trialdefinition : List TrialRow)
    (samplerate : ℚ) : Option (List TrialRow × ℚ × Bool) :=
  match cfg.toi with
  | Toi.arr pts =>
    let nToi : ℚ := pts.length
    let time := cumsum (List.replicate trialdefinition.length nToi)
    let trl1 := (trialdefinition.zip time).map
      (fun p => { p.1 with start := p.2 - nToi, stop := p.2 })
    let tSteps := diffs pts
    if 2 ≤ pts.length then
      let uniform := tSteps.all (fun s => s = tSteps.headD 0)
      let sr : ℚ := if uniform then 1 / (pts.getD 1 0 - pts.getD 0 0) else 1
      let trl2 := if uniform then trl1
        else trl1.map (fun r => { r with offset := 0 })
      let trl3 := trl2.map (fun r => { r with offset := pts.getD 0 0 * sr })
      some (trl3, sr, !uniform)
    else
      none
  | Toi.num _ =>
    let winSize := cfg.nperseg - cfg.noverlap
    let lens := trialdefinition.map
      (fun r => ((⌈(r.stop - r.start) / winSize⌉ : ℤ) : ℚ))
    let sums := cumsum lens
    let trl1 := (trialdefinition.zip (lens.zip sums)).map
      (fun p =>
        { p.1 with
          start := p.2.2 - p.2.1
          stop := p.2.2
          offset := p.1.offset / winSize })
    some (trl1, np_round2 (samplerate / winSize), false)
  | Toi.all =>
    let bounds := cumsum (trialdefinition.map (fun r => r.stop - r.start))
    let trl1 := ((List.range trialdefinition.length).zip trialdefinition).map
      (fun p =>
        { p.2 with
          start := if p.1 = 0 then p.2.start else bounds.getD (p.1 - 1) 0
          stop := bounds.getD p.1 0 })
    some (trl1, samplerate, false)

/-- The row list the `"all"` branch of `_make_trialdef` produces (named
for use in the proofs below). -/
def toiAllRows (trl : List TrialRow) : List TrialRow :=
  ((List.range trl.length).zip trl).map
    (fun p =>
      { p.2 with
        start := if p.1 = 0 then p.2.start
          else (cumsum (trl.map (fun r => r.stop - r.start))).getD (p.1 - 1) 0
        stop := (cumsum (trl.map (fun r => r.stop - r.start))).getD p.1 0 })

/-- The row list the scalar-`toi` branch of `_make_trialdef` produces
with window stride `w` (named for use in the proofs below). -/
def toiNumRows (w : ℚ) (trl : List TrialRow) : List TrialRow :=
  (trl.zip ((trl.map (fun r => ((⌈(r.stop - r.start) / w⌉ : ℤ) : ℚ))).zip
      (cumsum (trl.map (fun r => ((⌈(r.stop - r.start) / w⌉ : ℤ) : ℚ)))))).map
    (fun p =>
      { p.1 with
        start := p.2.2 - p.2.1
        stop := p.2.2
        offset := p.1.offset / w })

/-- NumPy dtypes relevant to the spectral output. -/
inductive DType where
  | float32
  | complex64
  | complex128
deriving DecidableEq

/-- The spectral output encodings (`availableOutputs`). -/
inductive OutputFmt where
  | pow
  | fourier
  | abs
deriving DecidableEq

/-- Modelled from the spec: `spectralDTypes` lives in
`syncopy/shared/const_def.py`, which is not part of the sources; per the
kernel contract it fixes the output dtype of each encoding. -/
def spectralDTypes : OutputFmt → DType
  | OutputFmt.pow => DType.float32
  | OutputFmt.fourier => DType.complex64
  | OutputFmt.abs => DType.float32

/-- A NumPy array abstracted to its shape and dtype — the level at which
the planning/execution agreement of C1 is stated. -/
structure NDArr where
  shape : List ℕ
  dtype : DType
deriving DecidableEq

/-- Modelled from the spec: `spectralConversions` (also from
`const_def.py`, not part of the sources) converts the raw complex
spectrum to the requested encoding; it keeps the shape and casts the
dtype to `spectralDTypes fmt`. -/
def spectralConversions (fmt : OutputFmt) (a : NDArr) : NDArr :=
  ⟨a.shape, spectralDTypes fmt⟩

/-- The 2-D trial array as seen by the middleware: its shape. -/
structure Trl2D where
  shape0 : ℕ
  shape1 : ℕ
deriving DecidableEq

/-- The `method_kwargs` entries `mtmfft_cF` reads: `nSamples` (padding
target), `samplerate`, and `taper_opt.get("Kmax", 1)`. -/
structure MtmfftKwargs where
  nSamples : Option ℕ
  samplerate : ℚ
  kmax : Option ℕ
deriving DecidableEq

/-- `np.fft.rfftfreq nSamples (1 / samplerate)`. -/
def rfftfreq (n : ℕ) (samplerate : ℚ) : List ℚ :=
  (List.range (n / 2 + 1)).map (fun k => k * samplerate / n)

/-- Modelled from the spec: the `mtmfft` backend
(`syncopy/specest/mtmfft.py`, not part of the sources) is a pluggable
numeric kernel returning one complex spectral estimate per taper over
the full rfft frequency axis: shape `(nTaper, nSamples//2+1, nChannels)`. -/
def mtmfft_backend (nSamples nChannels : ℕ) (kw : MtmfftKwargs) : NDArr :=
  ⟨[kw.kmax.getD 1, nSamples / 2 + 1, nChannels], DType.complex128⟩

/-- Embedding of `mtmfft_cF` at shape/dtype level, parametrised by the
`best_match` helper (`syncopy/shared/tools.py`, not part of the sources),
which returns the matched frequency indices.  Planning mode
(`noCompute = true`) returns the `(outputShape, outputDType)` pair;
execution mode returns the spectrum array: transpose for a non-zero
`timeAxis`, frequency selection `res[np.newaxis, :, freq_idx, :]`,
spectral conversion, and the keepdims taper average when `keeptapers`
is off.  Detrending is shape-preserving and elided. -/
def mtmfft_cF (bestMatch : List ℚ → List ℚ → List ℕ)
    (trl_dat : Trl2D) (foi : List ℚ) (timeAxis : ℕ) (keeptapers : Bool)
    (output_fmt : OutputFmt) (noCompute : Bool) (kw : MtmfftKwargs) :
    (List ℕ × DType) ⊕ NDArr :=
  let dat := if timeAxis ≠ 0 then Trl2D.mk trl_dat.shape1 trl_dat.shape0
    else trl_dat
  let nSamples := kw.nSamples.getD dat.shape0
  let nChannels := dat.shape1
  let freqs := rfftfreq nSamples kw.samplerate
  let freq_idx := bestMatch freqs foi
  let nFreq := freq_idx.length
  let nTaper := kw.kmax.getD 1
  let outShape := [1, max 1 (nTaper * (if keeptapers then 1 else 0)),
    nFreq, nChannels]
  if noCompute then
    Sum.inl (outShape, spectralDTypes output_fmt)
  else
    let res := mtmfft_backend nSamples nChannels kw
    let spec : NDArr := ⟨[1, res.shape.getD 0 0, nFreq, res.shape.getD 2 0],
      res.dtype⟩
    let spec := spectralConversions output_fmt spec
    if !keeptapers then
      Sum.inr ⟨spec.shape.set 1 1, spec.dtype⟩
    else
      Sum.inr spec

/-- The error dask's `wait_for_workers` raises when the quorum is not
reached within the timeout. -/
inductive TimeoutErr where
  | timeout
deriving DecidableEq

/-- The observable state of the Dask client in
`check_workers_available`: `len(client.cluster.requested)`,
`len(client.cluster.scheduler_info["workers"])`, and whether the worker
quorum comes up within the timeout bound. -/
structure DaskClientEnv where
  requested : ℕ
  workersAlive : ℕ
  quorumReachedInTime : Bool
deriving DecidableEq

/-- `int(totalWorkers ** 0.7)`: the largest `m` with `m^10 ≤ n^7`
(the real power evaluated exactly, then truncated). -/
def minWorkersOf (n : ℕ) : ℕ :=
  Nat.findGreatest (fun m => m ^ 10 ≤ n ^ 7) n

def waitingMsg : String := "waiting for minWorkers.."

def startingMsg : String := "workers available, starting computation.."

/-- Behaviour of the external `distributed.Client.wait_for_workers`:
returns once `nWorkers` workers are alive, and raises `TimeoutError`
when that quorum is not reached within the timeout. -/
def wait_for_workers (env : DaskClientEnv) (nWorkers : ℕ) :
    Except TimeoutErr Unit :=
  if nWorkers ≤ env.workersAlive then Except.ok ()
  else if env.quorumReachedInTime then Except.ok ()
  else Except.error TimeoutErr.timeout

/-- Embedding of `check_workers_available`: log when fewer than
`minWorkers` workers are alive, call `wait_for_workers` — whose
`TimeoutError` is NOT caught and propagates to the caller — then log the
final worker count.  Returns the emitted log messages. -/
def check_workers_available (env : DaskClientEnv) :
    Except TimeoutErr (List String) :=
  let totalWorkers := env.requested
  let minWorkers := minWorkersOf totalWorkers
  let logs₀ : List String :=
    if env.workersAlive < minWorkers then [waitingMsg] else []
  match wait_for_workers env minWorkers with
  | Except.error e => Except.error e
  | Except.ok _ =>
    Except.ok (if env.workersAlive ≠ totalWorkers
      then logs₀ ++ [startingMsg] else logs₀)

/-! ### Theorems -/

theorem lookup_dictSet_self {K V : Type} [DecidableEq K]
    (d : List (K × V)) (k : K) (v : V) :
    List.lookup k (dictSet d k v) = some v := by
  induction d with
  | nil => simp [dictSet, List.lookup]
  | cons p d ih =>
    by_cases hp : p.1 = k
    · simp [dictSet, hp, List.lookup]
    · simp only [dictSet, if_neg hp, List.lookup]
      have : (k == p.1) = false := by
        simp [BEq.beq]
        exact fun h => hp h.symm
      simp [this, ih]

theorem lookup_dictSet_ne {K V : Type} [DecidableEq K]
    (d : List (K × V)) (k k' : K) (v : V) (h : k' ≠ k) :
    List.lookup k' (dictSet d k v) = List.lookup k' d := by
  have hkk : (k' == k) = false := by simpa using h
  induction d with
  | nil => simp [dictSet, List.lookup, hkk]
  | cons p d ih =>
    by_cases hp : p.1 = k
    · have hp' : (k' == p.1) = false := by
        simp only [beq_eq_false_iff_ne, ne_eq]
        intro hEq
        exact h (hEq.trans hp)
      simp [dictSet, if_pos hp, List.lookup, hkk, hp']
    · simp only [dictSet, if_neg hp, List.lookup, ih]

theorem lookup_eq_none_of_not_mem_keys {K V : Type} [DecidableEq K]
    (d : List (K × V)) (k : K) (h : k ∉ keysOf d) :
    List.lookup k d = none := by
  induction d with
  | nil => simp [List.lookup]
  | cons p d ih =>
    simp only [keysOf, List.map_cons, List.mem_cons, not_or] at h
    have h1 : (k == p.1) = false := by simpa using h.1
    have h2 : k ∉ keysOf d := by simpa [keysOf] using h.2
    simp [List.lookup, h1, ih h2]

theorem lookup_dictUpdate {K V : Type} [DecidableEq K]
    (d e : List (K × V)) (k : K) (he : NodupKeys e) :
    List.lookup k (dictUpdate d e) =
      match List.lookup k e with
      | some v => some v
      | none => List.lookup k d := by
  induction e generalizing d with
  | nil => simp [dictUpdate, List.lookup]
  | cons p e ih =>
    simp only [NodupKeys, keysOf, List.map_cons, List.nodup_cons] at he
    have hupd : dictUpdate d (p :: e) = dictUpdate (dictSet d p.1 p.2) e := rfl
    rw [hupd, ih (dictSet d p.1 p.2) (by simpa [NodupKeys, keysOf] using he.2)]
    by_cases hk : k = p.1
    · have hnone : List.lookup k e = none :=
        lookup_eq_none_of_not_mem_keys e k (by
          simpa [keysOf, hk] using he.1)
      have hbeq : (k == p.1) = true := by simpa using hk
      simp only [hnone, List.lookup, hbeq]
      rw [hk, lookup_dictSet_self]
    · have hbeq : (k == p.1) = false := by simpa using hk
      simp only [List.lookup, hbeq]
      rw [lookup_dictSet_ne d p.1 k p.2 hk]

/-- Lookup in the left fold `_merge_md_list` performs on one dict
component: the last bundle holding the key wins, and an untouched key
falls back to the accumulator. -/
theorem lookup_foldl_dictUpdate {K V : Type} [DecidableEq K]
    (ds : List (List (K × V))) (acc : List (K × V)) (k : K)
    (hnd : ∀ d ∈ ds, (d.map Prod.fst).Nodup) :
    List.lookup k (ds.foldl dictUpdate acc) =
      match mergedVal ds k with
      | some v => some v
      | none => List.lookup k acc := by
  induction ds generalizing acc with
  | nil => simp [mergedVal]
  | cons d ds ih =>
    have hd : (d.map Prod.fst).Nodup := hnd d (by simp)
    have hds : ∀ x ∈ ds, (x.map Prod.fst).Nodup := fun x hx => hnd x (by simp [hx])
    simp only [List.foldl_cons]
    rw [ih (dictUpdate acc d) hds,
      lookup_dictUpdate acc d k (by simpa [NodupKeys, keysOf] using hd)]
    simp only [mergedVal]
    cases mergedVal ds k with
    | some v => rfl
    | none => cases List.lookup k d <;> rfl

theorem keysOf_cons {K V : Type} (p : K × V) (d : List (K × V)) :
    keysOf (p :: d) = p.1 :: keysOf d := rfl

theorem lookup_isSome_iff_mem_keys {K V : Type} [DecidableEq K]
    (d : List (K × V)) (k : K) :
    (List.lookup k d).isSome ↔ k ∈ keysOf d := by
  induction d with
  | nil => simp [List.lookup, keysOf]
  | cons p d ih =>
    rw [keysOf_cons, List.mem_cons]
    by_cases hp : k = p.1
    · have hb : (k == p.1) = true := by simpa using hp
      simp [List.lookup, hb, hp]
    · have hb : (k == p.1) = false := by simpa using hp
      have hlk : List.lookup k (p :: d) = List.lookup k d := by
        simp [List.lookup, hb]
      rw [hlk, ih]
      simp [hp]

theorem mergedVal_eq_none {K V : Type} [DecidableEq K]
    (ds : List (List (K × V))) (k : K)
    (h : ∀ d ∈ ds, List.lookup k d = none) :
    mergedVal ds k = none := by
  induction ds with
  | nil => rfl
  | cons d ds ih =>
    have hd := h d (by simp)
    have hds : ∀ x ∈ ds, List.lookup k x = none := fun x hx => h x (by simp [hx])
    simp [mergedVal, ih hds, hd]

theorem mergedVal_eq_some_iff {K V : Type} [DecidableEq K]
    (ds : List (List (K × V))) (k : K) (v : V) (hdisj : DisjDicts ds) :
    mergedVal ds k = some v ↔ ∃ d ∈ ds, List.lookup k d = some v := by
  induction ds with
  | nil => simp [mergedVal]
  | cons d ds ih =>
    rcases List.pairwise_cons.1 hdisj with ⟨hhead, htail⟩
    constructor
    · intro h
      simp only [mergedVal] at h
      cases hm : mergedVal ds k with
      | some w =>
        rw [hm] at h
        have hwv : w = v := by simpa using h
        subst hwv
        rcases (ih htail).1 hm with ⟨d', hd', hv⟩
        exact ⟨d', by simp [hd'], hv⟩
      | none =>
        rw [hm] at h
        exact ⟨d, by simp, h⟩
    · rintro ⟨d', hd', hv⟩
      rcases List.mem_cons.1 hd' with h1 | h2
      · subst h1
        have hnone : mergedVal ds k = none := by
          apply mergedVal_eq_none
          intro x hx
          have hk : k ∈ keysOf d' := by
            rw [← lookup_isSome_iff_mem_keys]
            simp [hv]
          have : k ∉ keysOf x := hhead x hx k hk
          exact lookup_eq_none_of_not_mem_keys x k this
        simp [mergedVal, hnone, hv]
      · have := (ih htail).2 ⟨d', h2, hv⟩
        simp [mergedVal, this]

theorem mergedVal_perm {K V : Type} [DecidableEq K]
    (ds ds' : List (List (K × V))) (k : K)
    (hdisj : DisjDicts ds) (hperm : ds.Perm ds') :
    mergedVal ds' k = mergedVal ds k := by
  have hsymm : ∀ {a b : List (K × V)},
      (∀ k ∈ keysOf a, k ∉ keysOf b) → (∀ k ∈ keysOf b, k ∉ keysOf a) :=
    fun hab k hk hka => hab k hka hk
  have hdisj' : DisjDicts ds' := (hperm.pairwise_iff hsymm).1 hdisj
  cases h : mergedVal ds k with
  | some v =>
    rcases (mergedVal_eq_some_iff ds k v hdisj).1 h with ⟨d, hd, hv⟩
    exact (mergedVal_eq_some_iff ds' k v hdisj').2 ⟨d, hperm.mem_iff.1 hd, hv⟩
  | none =>
    cases h' : mergedVal ds' k with
    | some v =>
      rcases (mergedVal_eq_some_iff ds' k v hdisj').1 h' with ⟨d, hd, hv⟩
      have := (mergedVal_eq_some_iff ds k v hdisj).2 ⟨d, hperm.mem_iff.2 hd, hv⟩
      rw [this] at h
      exact absurd h (by simp)
    | none => rfl

theorem unionVal_cons {K V : Type} [DecidableEq K]
    (d : List (K × V)) (ds : List (List (K × V))) (k : K) :
    unionVal (d :: ds) k =
      match List.lookup k d with
      | some v => some v
      | none => unionVal ds k := by
  simp only [unionVal, List.filterMap_cons]
  cases List.lookup k d with
  | some v => simp
  | none => rfl

theorem mergedVal_eq_unionVal {K V : Type} [DecidableEq K]
    (ds : List (List (K × V))) (k : K) (hdisj : DisjDicts ds) :
    mergedVal ds k = unionVal ds k := by
  induction ds with
  | nil => rfl
  | cons d ds ih =>
    rcases List.pairwise_cons.1 hdisj with ⟨hhead, htail⟩
    rw [unionVal_cons]
    simp only [mergedVal]
    cases hd : List.lookup k d with
    | some v =>
      have hnone : mergedVal ds k = none := by
        apply mergedVal_eq_none
        intro x hx
        apply lookup_eq_none_of_not_mem_keys
        apply hhead x hx
        rw [← lookup_isSome_iff_mem_keys]
        simp [hd]
      rw [hnone]
    | none =>
      rw [ih htail]
      cases unionVal ds k <;> rfl

theorem mergedVal_append {K V : Type} [DecidableEq K]
    (l₁ l₂ : List (List (K × V))) (k : K) :
    mergedVal (l₁ ++ l₂) k =
      match mergedVal l₂ k with
      | some v => some v
      | none => mergedVal l₁ k := by
  induction l₁ with
  | nil =>
    simp only [List.nil_append]
    cases h : mergedVal l₂ k <;> simp [mergedVal, h]
  | cons d l₁ ih =>
    have hc : mergedVal ((d :: l₁) ++ l₂) k =
        match mergedVal (l₁ ++ l₂) k with
        | some v => some v
        | none => List.lookup k d := rfl
    rw [hc, ih]
    simp only [mergedVal]
    cases mergedVal l₂ k <;> cases mergedVal l₁ k <;> rfl

theorem keysOf_dictSet {K V : Type} [DecidableEq K]
    (d : List (K × V)) (k : K) (v : V) :
    keysOf (dictSet d k v) =
      if k ∈ keysOf d then keysOf d else keysOf d ++ [k] := by
  induction d with
  | nil => simp [dictSet, keysOf]
  | cons p d ih =>
    by_cases hp : p.1 = k
    · simp [dictSet, hp, keysOf]
    · have hne : k ≠ p.1 := fun h => hp h.symm
      have hcons : keysOf (dictSet (p :: d) k v) =
          p.1 :: keysOf (dictSet d k v) := by
        simp [dictSet, if_neg hp, keysOf]
      rw [hcons, ih]
      have hmem : k ∈ keysOf (p :: d) ↔ k ∈ keysOf d := by
        rw [keysOf_cons, List.mem_cons]
        simp [hne]
      by_cases hd : k ∈ keysOf d
      · rw [if_pos hd, if_pos (hmem.2 hd), keysOf_cons]
      · rw [if_neg hd, if_neg (fun h => hd (hmem.1 h)), keysOf_cons,
          List.cons_append]

theorem nodupKeys_dictSet {K V : Type} [DecidableEq K]
    (d : List (K × V)) (k : K) (v : V) (h : NodupKeys d) :
    NodupKeys (dictSet d k v) := by
  unfold NodupKeys at *
  rw [keysOf_dictSet]
  by_cases hk : k ∈ keysOf d
  · simpa [hk] using h
  · simp only [hk, if_false]
    rw [List.nodup_append]
    exact ⟨h, List.nodup_singleton k, by simpa using hk⟩

theorem nodupKeys_dictUpdate {K V : Type} [DecidableEq K]
    (d e : List (K × V)) (h : NodupKeys d) :
    NodupKeys (dictUpdate d e) := by
  induction e generalizing d with
  | nil => exact h
  | cons p e ih =>
    exact ih (dictSet d p.1 p.2) (nodupKeys_dictSet d p.1 p.2 h)

theorem nodupKeys_foldl_dictUpdate {K V : Type} [DecidableEq K]
    (ds : List (List (K × V))) (acc : List (K × V)) (h : NodupKeys acc) :
    NodupKeys (ds.foldl dictUpdate acc) := by
  induction ds generalizing acc with
  | nil => exact h
  | cons d ds ih => exact ih (dictUpdate acc d) (nodupKeys_dictUpdate acc d h)

/-- The fold of `_merge_md_list` acts component-wise on the two sub-dicts. -/
theorem merge_foldl_components {V : Type} (l : List (MDGroup V)) (m₀ : MDGroup V) :
    l.foldl (fun metadata md =>
        { dsets := dictUpdate metadata.dsets md.dsets,
          attrs := dictUpdate metadata.attrs md.attrs }) m₀ =
      { dsets := (l.map MDGroup.dsets).foldl dictUpdate m₀.dsets,
        attrs := (l.map MDGroup.attrs).foldl dictUpdate m₀.attrs } := by
  induction l generalizing m₀ with
  | nil => rfl
  | cons md l ih =>
    simp only [List.foldl_cons, List.map_cons]
    rw [ih]

/-- Characterization of `_merge_md_list` on a non-empty list of
well-formed bundles: it succeeds and each component maps every key to the
value from the last bundle carrying that key. -/
theorem merge_md_list_lookup {V : Type} (l : List (MDGroup V)) (hne : l ≠ [])
    (hwf : WFBundles l) :
    ∃ m, _merge_md_list l = some m ∧
      (∀ k, List.lookup k m.attrs = mergedVal (l.map MDGroup.attrs) k) ∧
      (∀ k, List.lookup k m.dsets = mergedVal (l.map MDGroup.dsets) k) ∧
      NodupKeys m.attrs ∧ NodupKeys m.dsets := by
  have hndA : ∀ d ∈ l.map MDGroup.attrs, (d.map Prod.fst).Nodup := by
    intro d hd
    rcases List.mem_map.1 hd with ⟨md, hmd, rfl⟩
    exact (hwf md hmd).1
  have hndD : ∀ d ∈ l.map MDGroup.dsets, (d.map Prod.fst).Nodup := by
    intro d hd
    rcases List.mem_map.1 hd with ⟨md, hmd, rfl⟩
    exact (hwf md hmd).2
  match l, hne with
  | md₀ :: rest, _ =>
    refine ⟨_, rfl, ?_, ?_, ?_, ?_⟩
    · intro k
      rw [merge_foldl_components]
      have := lookup_foldl_dictUpdate ((md₀ :: rest).map MDGroup.attrs) [] k hndA
      simp only [List.lookup] at this
      rw [this]
      cases mergedVal ((md₀ :: rest).map MDGroup.attrs) k <;> rfl
    · intro k
      rw [merge_foldl_components]
      have := lookup_foldl_dictUpdate ((md₀ :: rest).map MDGroup.dsets) [] k hndD
      simp only [List.lookup] at this
      rw [this]
      cases mergedVal ((md₀ :: rest).map MDGroup.dsets) k <;> rfl
    · rw [merge_foldl_components]
      exact nodupKeys_foldl_dictUpdate _ [] (by simp [NodupKeys, keysOf])
    · rw [merge_foldl_components]
      exact nodupKeys_foldl_dictUpdate _ [] (by simp [NodupKeys, keysOf])

/-- C9: for every non-empty list of metadata bundles whose attribute key
sets and dataset key sets are pairwise disjoint, `_merge_md_list` produces
the union of all entries, the produced mapping is the same for every
order of the input bundles, and grouped merging (merging the merge of a
non-empty prefix with the merge of the non-empty rest) yields the same
mapping as merging the flat list. -/
theorem merge_md_list_union_comm_assoc {V : Type}
    (l l' l₁ l₂ : List (MDGroup V))
    (hwf : WFBundles l) (hdisj : DisjBundles l)
    (hperm : l.Perm l') (hsplit : l = l₁ ++ l₂)
    (h₁ : l₁ ≠ []) (h₂ : l₂ ≠ []) :
    ∃ m m' m₁ m₂ mg,
      _merge_md_list l = some m ∧
      (∀ k, List.lookup k m.attrs = unionVal (l.map MDGroup.attrs) k ∧
            List.lookup k m.dsets = unionVal (l.map MDGroup.dsets) k) ∧
      _merge_md_list l' = some m' ∧
      (∀ k, List.lookup k m'.attrs = List.lookup k m.attrs ∧
            List.lookup k m'.dsets = List.lookup k m.dsets) ∧
      _merge_md_list l₁ = some m₁ ∧ _merge_md_list l₂ = some m₂ ∧
      _merge_md_list [m₁, m₂] = some mg ∧
      (∀ k, List.lookup k mg.attrs = List.lookup k m.attrs ∧
            List.lookup k mg.dsets = List.lookup k m.dsets) := by
  have hne : l ≠ [] := by
    rw [hsplit]
    cases l₁ with
    | nil => exact absurd rfl h₁
    | cons a t => simp
  have hne' : l' ≠ [] := by
    intro h
    apply hne
    have := hperm.length_eq
    rw [h, List.length_nil] at this
    exact List.eq_nil_of_length_eq_zero this
  have hwf' : WFBundles l' := fun md hmd => hwf md (hperm.mem_iff.2 hmd)
  have hwf₁ : WFBundles l₁ := fun md hmd => hwf md (by rw [hsplit]; exact List.mem_append_left _ hmd)
  have hwf₂ : WFBundles l₂ := fun md hmd => hwf md (by rw [hsplit]; exact List.mem_append_right _ hmd)
  obtain ⟨m, hm, hmA, hmD, hmna, hmnd⟩ := merge_md_list_lookup l hne hwf
  obtain ⟨m', hm', hmA', hmD', _, _⟩ := merge_md_list_lookup l' hne' hwf'
  obtain ⟨m₁, hm₁, hmA₁, hmD₁, hn₁a, hn₁d⟩ := merge_md_list_lookup l₁ h₁ hwf₁
  obtain ⟨m₂, hm₂, hmA₂, hmD₂, hn₂a, hn₂d⟩ := merge_md_list_lookup l₂ h₂ hwf₂
  have hwfg : WFBundles [m₁, m₂] := by
    intro md hmd
    rcases List.mem_cons.1 hmd with h | h
    · exact h ▸ ⟨hn₁a, hn₁d⟩
    · rcases List.mem_cons.1 h with h | h
      · exact h ▸ ⟨hn₂a, hn₂d⟩
      · simp at h
  obtain ⟨mg, hmg, hmgA, hmgD, _, _⟩ :=
    merge_md_list_lookup [m₁, m₂] (by simp) hwfg
  refine ⟨m, m', m₁, m₂, mg, hm, ?_, hm', ?_, hm₁, hm₂, hmg, ?_⟩
  · intro k
    rw [hmA k, hmD k, mergedVal_eq_unionVal _ _ hdisj.1,
      mergedVal_eq_unionVal _ _ hdisj.2]
    exact ⟨rfl, rfl⟩
  · intro k
    rw [hmA k, hmD k, hmA' k, hmD' k,
      mergedVal_perm _ _ k hdisj.1 (hperm.map MDGroup.attrs),
      mergedVal_perm _ _ k hdisj.2 (hperm.map MDGroup.dsets)]
    exact ⟨rfl, rfl⟩
  · intro k
    have hA2 : mergedVal ([m₁, m₂].map MDGroup.attrs) k =
        mergedVal (l.map MDGroup.attrs) k := by
      have hpair : mergedVal ([m₁, m₂].map MDGroup.attrs) k =
          match List.lookup k m₂.attrs with
          | some v => some v
          | none => List.lookup k m₁.attrs := by
        simp only [List.map_cons, List.map_nil, mergedVal]
      rw [hpair, hmA₂ k, hmA₁ k, hsplit, List.map_append,
        mergedVal_append]
    have hD2 : mergedVal ([m₁, m₂].map MDGroup.dsets) k =
        mergedVal (l.map MDGroup.dsets) k := by
      have hpair : mergedVal ([m₁, m₂].map MDGroup.dsets) k =
          match List.lookup k m₂.dsets with
          | some v => some v
          | none => List.lookup k m₁.dsets := by
        simp only [List.map_cons, List.map_nil, mergedVal]
      rw [hpair, hmD₂ k, hmD₁ k, hsplit, List.map_append,
        mergedVal_append]
    rw [hmgA k, hmgD k, hA2, hD2, hmA k, hmD k]
    exact ⟨rfl, rfl⟩

/-- C10: if bundles in the list share an attribute or dataset key, the
merge still succeeds and the merged bundle maps the shared key to the
value from the bundle occurring later in the list (the last bundle
carrying the key wins; earlier entries are silently overwritten). -/
theorem merge_md_list_later_overwrites {V : Type}
    (pre post : List (MDGroup V)) (b : MDGroup V) (ka kd : String) (va vd : V)
    (hwf : WFBundles (pre ++ b :: post))
    (hka : List.lookup ka b.attrs = some va)
    (hkd : List.lookup kd b.dsets = some vd)
    (hpa : ∀ c ∈ post, List.lookup ka c.attrs = none)
    (hpd : ∀ c ∈ post, List.lookup kd c.dsets = none) :
    ∃ m, _merge_md_list (pre ++ b :: post) = some m ∧
      List.lookup ka m.attrs = some va ∧
      List.lookup kd m.dsets = some vd := by
  have hne : pre ++ b :: post ≠ [] := by
    cases pre <;> simp
  obtain ⟨m, hm, hmA, hmD, _, _⟩ := merge_md_list_lookup _ hne hwf
  refine ⟨m, hm, ?_, ?_⟩
  · rw [hmA ka, List.map_append, mergedVal_append]
    have hpost : mergedVal (post.map MDGroup.attrs) ka = none := by
      apply mergedVal_eq_none
      intro d hd
      rcases List.mem_map.1 hd with ⟨c, hc, rfl⟩
      exact hpa c hc
    have hcons : mergedVal ((b :: post).map MDGroup.attrs) ka = some va := by
      simp only [List.map_cons, mergedVal, hpost, hka]
    rw [hcons]
  · rw [hmD kd, List.map_append, mergedVal_append]
    have hpost : mergedVal (post.map MDGroup.dsets) kd = none := by
      apply mergedVal_eq_none
      intro d hd
      rcases List.mem_map.1 hd with ⟨c, hc, rfl⟩
      exact hpd c hc
    have hcons : mergedVal ((b :: post).map MDGroup.dsets) kd = some vd := by
      simp only [List.map_cons, mergedVal, hpost, hkd]
    rw [hcons]

/-- Witness for C9 at three concrete disjoint bundles, reordered as
`[C, A, B]` and grouped as `[A] ++ [B, C]`. -/
theorem merge_md_list_union_comm_assoc_witness :
    ∃ m m' m₁ m₂ mg,
      _merge_md_list [mdA, mdB, mdC] = some m ∧
      (∀ k, List.lookup k m.attrs =
              unionVal ([mdA, mdB, mdC].map MDGroup.attrs) k ∧
            List.lookup k m.dsets =
              unionVal ([mdA, mdB, mdC].map MDGroup.dsets) k) ∧
      _merge_md_list [mdC, mdA, mdB] = some m' ∧
      (∀ k, List.lookup k m'.attrs = List.lookup k m.attrs ∧
            List.lookup k m'.dsets = List.lookup k m.dsets) ∧
      _merge_md_list [mdA] = some m₁ ∧
      _merge_md_list [mdB, mdC] = some m₂ ∧
      _merge_md_list [m₁, m₂] = some mg ∧
      (∀ k, List.lookup k mg.attrs = List.lookup k m.attrs ∧
            List.lookup k mg.dsets = List.lookup k m.dsets) :=
  merge_md_list_union_comm_assoc [mdA, mdB, mdC] [mdC, mdA, mdB]
    [mdA] [mdB, mdC]
    (by decide) (by decide) (by decide) rfl (by decide) (by decide)

/-- Witness for C10: two bundles sharing the attribute key `ak` and the
dataset key `dk`; the merge succeeds and keeps the later bundle's
values. -/
theorem merge_md_list_later_overwrites_witness :
    ∃ m, _merge_md_list [mdPre, mdOver] = some m ∧
      List.lookup akKey m.attrs = some 4 ∧
      List.lookup dkKey m.dsets = some 3 :=
  merge_md_list_later_overwrites [mdPre] [] mdOver akKey dkKey 4 3
    (by decide) (by decide) (by decide) (by decide) (by decide)

/-- C8: `metadata_from_h5py_file` raises if and only if the file lacks a
primary `data` dataset; when `data` is present but no `metadata` group
exists (at the root for a plain dataset, or in any virtual source for a
virtual one) it returns the absent result `None` instead of failing. -/
theorem metadata_error_iff_no_data {V : Type} (f : H5File V) :
    (raisesError (metadata_from_h5py_file f) = true ↔ f.hasData = false) ∧
    (f.hasData = true →
      (f.isVirtual = true →
        (∀ s ∈ f.virtualSources, s.metadata = none) →
        metadata_from_h5py_file f = Except.ok none) ∧
      (f.isVirtual = false → f.rootMetadata = none →
        metadata_from_h5py_file f = Except.ok none)) := by
  constructor
  · cases hD : f.hasData with
    | false => simp [metadata_from_h5py_file, hD, raisesError]
    | true =>
      simp only [metadata_from_h5py_file, hD, if_true]
      cases hV : f.isVirtual with
      | true => simp [raisesError]
      | false =>
        cases hR : f.rootMetadata <;> simp [raisesError]
  · intro hD
    constructor
    · intro hV hnone
      have hfm : f.virtualSources.filterMap
          (fun s => s.metadata.map extract_md_group) = [] := by
        rw [List.filterMap_eq_nil_iff]
        intro s hs
        rw [hnone s hs]
        rfl
      simp [metadata_from_h5py_file, hD, hV, hfm, _merge_md_list]
    · intro hV hR
      simp [metadata_from_h5py_file, hD, hV, hR]

/-- Witness for C8: a virtual file whose two source extents carry no
metadata group yields `None` without raising, and does not raise. -/
theorem metadata_error_iff_no_data_witness :
    metadata_from_h5py_file h5NoMd = Except.ok none ∧
    (raisesError (metadata_from_h5py_file h5NoMd) = true ↔
      h5NoMd.hasData = false) :=
  ⟨((metadata_error_iff_no_data h5NoMd).2 rfl).1 rfl (by decide),
    (metadata_error_iff_no_data h5NoMd).1⟩

/-- C2 fails on the code: packing the two per-channel quantities of
`fooofDetails0` and unpacking with the counts `[1, 1]` leaves the
`gaussian_params` label holding the mis-sliced *peak* rows (every slice
starts at offset 0 because the running offset is never advanced, and the
second write-back targets the gaussian label again), while the
`peak_params` label still holds the packed stacked array.  Neither
quantity is reproduced. -/
theorem fooof_pack_unpack_not_roundtrip :
    unpack_alltrials_metadata_fooof_from_hdf5 fooofAttrs0 =
      some [(encode_unique_md_label nPeaksName 0 0, MDVal.counts [1, 1]),
            (encode_unique_md_label gaussianName 0 0,
              MDVal.mats [[[7, 8, 9]], [[7, 8, 9]]]),
            (encode_unique_md_label peakName 0 0,
              MDVal.mat [[7, 8, 9], [10, 11, 12]])] ∧
    MDVal.mats [[[7, 8, 9]], [[7, 8, 9]]] ≠
      MDVal.mats fooofDetails0.gaussian_params ∧
    MDVal.mat [[7, 8, 9], [10, 11, 12]] ≠
      MDVal.mats fooofDetails0.peak_params := by
  refine ⟨by decide, by decide, by decide⟩

theorem length_cumsum (l : List ℚ) : (cumsum l).length = l.length := by
  simp [cumsum]

theorem cumsum_getD (l : List ℚ) (k : ℕ) (hk : k < l.length) (d : ℚ) :
    (cumsum l).getD k d = (l.take (k + 1)).sum := by
  have hk' : k < (cumsum l).length := by simpa [length_cumsum] using hk
  rw [List.getD_eq_getElem _ _ hk']
  simp [cumsum]

theorem diffs_length (l : List ℚ) : (diffs l).length = l.length - 1 := by
  simp [diffs, List.length_zip, List.length_tail]

theorem diffs_getD (l : List ℚ) (i : ℕ) (hi : i + 1 < l.length) :
    (diffs l).getD i 0 = l.getD (i + 1) 0 - l.getD i 0 := by
  have hlen : i < (diffs l).length := by
    rw [diffs_length]
    omega
  have h0 : i < l.length := by omega
  rw [List.getD_eq_getElem _ _ hlen, List.getD_eq_getElem _ _ hi,
    List.getD_eq_getElem _ _ h0]
  simp only [diffs, List.getElem_map, List.getElem_zip, List.getElem_tail]

theorem headD_eq_getD {α : Type} (l : List α) (d : α) :
    l.headD d = l.getD 0 d := by
  cases l <;> rfl

theorem cumsum_replicate_getD (n j : ℕ) (x : ℚ) (hj : j < n) :
    (cumsum (List.replicate n x)).getD j 0 = (j + 1) * x := by
  rw [cumsum_getD _ _ (by simpa using hj), List.take_replicate,
    List.sum_replicate]
  have hmin : min (j + 1) n = j + 1 := by omega
  rw [hmin]
  push_cast [nsmul_eq_mul]
  try ring

/-- C4: with an explicit `toi` array of `L ≥ 2` points and a `T`-row
input table, `_make_trialdef` gives trial `k` the boundaries
`start = k*L`, `stop = (k+1)*L` (cumulative and non-overlapping)
regardless of the spacing — the boundary assignment precedes the
spacing branch — and whenever the consecutive spacings all equal some
`Δ ≠ 0` the returned sampling rate is `1/Δ`, without a warning. -/
theorem make_trialdef_toi_array (cfg : TrialdefCfg) (trl : List TrialRow)
    (samplerate : ℚ) (pts : List ℚ)
    (htoi : cfg.toi = Toi.arr pts) (hlen : 2 ≤ pts.length) :
    ∃ trl' sr warned,
      _make_trialdef cfg trl samplerate = some (trl', sr, warned) ∧
      trl'.length = trl.length ∧
      (∀ k, k < trl.length →
        (trl'.getD k default).start = k * pts.length ∧
        (trl'.getD k default).stop = (k + 1) * pts.length) ∧
      ∀ dlt : ℚ, dlt ≠ 0 →
        (∀ i, i + 1 < pts.length →
          pts.getD (i + 1) 0 - pts.getD i 0 = dlt) →
        sr = 1 / dlt ∧ warned = false := by
  cases huni : (diffs pts).all (fun s => s = (diffs pts).headD 0) with
  | true =>
    refine ⟨((trl.zip (cumsum (List.replicate trl.length
        (pts.length : ℚ)))).map
        (fun p =>
          { p.1 with
            start := p.2 - (pts.length : ℚ)
            stop := p.2 })).map
        (fun r => { r with offset := pts.getD 0 0 *
          (1 / (pts.getD 1 0 - pts.getD 0 0)) }),
      1 / (pts.getD 1 0 - pts.getD 0 0), false, ?_, ?_, ?_, ?_⟩
    · simp only [_make_trialdef, htoi]
      rw [if_pos hlen]
      simp only [huni, if_true, Bool.not_true]
    · simp [List.length_map, List.length_zip, length_cumsum,
        List.length_replicate]
    · intro k hk
      have hklt : k < (((trl.zip (cumsum (List.replicate trl.length
          (pts.length : ℚ)))).map
          (fun p =>
            { p.1 with
              start := p.2 - (pts.length : ℚ)
              stop := p.2 })).map
          (fun r => { r with offset := pts.getD 0 0 *
            (1 / (pts.getD 1 0 - pts.getD 0 0)) })).length := by
        simpa [List.length_map, List.length_zip, length_cumsum,
          List.length_replicate] using hk
      have hkcs : k < (cumsum (List.replicate trl.length
          (pts.length : ℚ))).length := by
        simpa [length_cumsum, List.length_replicate] using hk
      have hcs := cumsum_replicate_getD trl.length k (pts.length : ℚ) hk
      rw [List.getD_eq_getElem _ _ hkcs] at hcs
      rw [List.getD_eq_getElem _ _ hklt]
      simp only [List.getElem_map, List.getElem_zip]
      constructor
      · show (cumsum (List.replicate trl.length (pts.length : ℚ)))[k] -
            (pts.length : ℚ) = (k : ℚ) * pts.length
        rw [hcs]
        ring
      · show (cumsum (List.replicate trl.length (pts.length : ℚ)))[k] =
            ((k : ℚ) + 1) * pts.length
        rw [hcs]
    · intro dlt hdlt hstep
      refine ⟨?_, rfl⟩
      rw [hstep 0 (by omega)]
  | false =>
    refine ⟨(((trl.zip (cumsum (List.replicate trl.length
        (pts.length : ℚ)))).map
        (fun p =>
          { p.1 with
            start := p.2 - (pts.length : ℚ)
            stop := p.2 })).map
        (fun r => { r with offset := 0 })).map
        (fun r => { r with offset := pts.getD 0 0 * 1 }),
      1, true, ?_, ?_, ?_, ?_⟩
    · simp only [_make_trialdef, htoi]
      rw [if_pos hlen]
      simp only [huni, Bool.false_eq_true, if_false, Bool.not_false]
    · simp [List.length_map, List.length_zip, length_cumsum,
        List.length_replicate]
    · intro k hk
      have hklt : k < ((((trl.zip (cumsum (List.replicate trl.length
          (pts.length : ℚ)))).map
          (fun p =>
            { p.1 with
              start := p.2 - (pts.length : ℚ)
              stop := p.2 })).map
          (fun r => { r with offset := 0 })).map
          (fun r => { r with offset := pts.getD 0 0 * 1 })).length := by
        simpa [List.length_map, List.length_zip, length_cumsum,
          List.length_replicate] using hk
      have hkcs : k < (cumsum (List.replicate trl.length
          (pts.length : ℚ))).length := by
        simpa [length_cumsum, List.length_replicate] using hk
      have hcs := cumsum_replicate_getD trl.length k (pts.length : ℚ) hk
      rw [List.getD_eq_getElem _ _ hkcs] at hcs
      rw [List.getD_eq_getElem _ _ hklt]
      simp only [List.getElem_map, List.getElem_zip]
      constructor
      · show (cumsum (List.replicate trl.length (pts.length : ℚ)))[k] -
            (pts.length : ℚ) = (k : ℚ) * pts.length
        rw [hcs]
        ring
      · show (cumsum (List.replicate trl.length (pts.length : ℚ)))[k] =
            ((k : ℚ) + 1) * pts.length
        rw [hcs]
    · intro dlt hdlt hstep
      exfalso
      have hhead : (diffs pts).headD 0 = dlt := by
        rw [headD_eq_getD, diffs_getD pts 0 (by omega)]
        exact hstep 0 (by omega)
      have halltrue : ((diffs pts).all
          (fun s => s = (diffs pts).headD 0)) = true := by
        rw [List.all_eq_true]
        intro s hs
        rcases List.mem_iff_getElem.1 hs with ⟨i, hi, rfl⟩
        have hi2 : i + 1 < pts.length := by
          have hi3 := hi
          rw [diffs_length] at hi3
          omega
        rw [← List.getD_eq_getElem _ 0 hi, diffs_getD pts i hi2,
          hstep i hi2, hhead]
        simp
      rw [huni] at halltrue
      exact Bool.false_ne_true halltrue

/-- Witness for C4 at `toi = [1, 3, 5]` (uniform step 2) over a
two-trial table: the boundary clause and the uniform sampling-rate
clause are both exercised. -/
theorem make_trialdef_toi_array_witness :
    ∃ trl', _make_trialdef ⟨Toi.arr [1, 3, 5], 0, 0⟩
        [⟨0, 7, 5, []⟩, ⟨7, 9, 6, []⟩] 100 = some (trl', 1 / 2, false) := by
  obtain ⟨trl', sr, warned, h, -, -, hu⟩ := make_trialdef_toi_array
    ⟨Toi.arr [1, 3, 5], 0, 0⟩ [⟨0, 7, 5, []⟩, ⟨7, 9, 6, []⟩] 100 [1, 3, 5]
    rfl (by norm_num)
  obtain ⟨hsr, hw⟩ := hu 2 (by norm_num)
    (by
      intro i hi
      have hi2 : i < 2 := by
        simp only [List.length_cons, List.length_nil] at hi
        omega
      interval_cases i <;> norm_num [List.getD])
  rw [hsr, hw] at h
  exact ⟨trl', h⟩

/-- C3 as stated is false on the code: with the non-uniform
`toi = [1, 2, 4]`, the trigger offsets are not all zero — the zeroing in
the non-uniform branch is immediately overwritten by the unconditional
trigger-onset reconstruction `trialdefinition[:, 2] = toi[0] * samplerate`,
leaving every offset at `toi[0] = 1`. -/
theorem make_trialdef_nonuniform_zero_offsets_cex :
    ¬ (∀ out ∈ _make_trialdef ⟨Toi.arr [1, 2, 4], 0, 0⟩
          [⟨0, 3, 5, []⟩] 100,
        ∀ r ∈ out.1, r.offset = 0) := by
  intro h
  have heval : _make_trialdef ⟨Toi.arr [1, 2, 4], 0, 0⟩ [⟨0, 3, 5, []⟩] 100 =
      some ([⟨0, 3, 1, []⟩], 1, true) := by
    norm_num [_make_trialdef, cumsum, diffs]
  have h2 := h ([⟨0, 3, 1, []⟩], 1, true) (by simp [Option.mem_def, heval])
  have h3 := h2 ⟨0, 3, 1, []⟩ (by simp)
  simp at h3

/-- C3 (amended): when `toi` is an explicit array with non-uniform
spacing, `_make_trialdef` warns, returns sampling rate `1.0`, and sets
every row's trigger offset to `toi[0]` (not to 0: the zeroing is
overwritten by the unconditional trigger-onset reconstruction, so the
offsets vanish only when the first time point is 0). -/
theorem make_trialdef_toi_array_nonuniform (cfg : TrialdefCfg)
    (trl : List TrialRow) (samplerate : ℚ) (pts : List ℚ)
    (htoi : cfg.toi = Toi.arr pts) (hlen : 2 ≤ pts.length)
    (hnu : ((diffs pts).all (fun s => s = (diffs pts).headD 0)) = false) :
    ∃ trl', _make_trialdef cfg trl samplerate = some (trl', 1, true) ∧
      trl'.length = trl.length ∧
      ∀ r ∈ trl', r.offset = pts.getD 0 0 := by
  refine ⟨((((trl.zip (cumsum (List.replicate trl.length
      (pts.length : ℚ)))).map
      (fun p =>
        { p.1 with
          start := p.2 - (pts.length : ℚ)
          stop := p.2 })).map
      (fun r => { r with offset := 0 })).map
      (fun r => { r with offset := pts.getD 0 0 * 1 })), ?_, ?_, ?_⟩
  · simp only [_make_trialdef, htoi]
    rw [if_pos hlen]
    simp only [hnu, Bool.false_eq_true, if_false, Bool.not_false]
  · simp [List.length_map, List.length_zip, length_cumsum,
      List.length_replicate]
  · intro r hr
    rcases List.mem_map.1 hr with ⟨r', _, rfl⟩
    simp

/-- Witness for C3's amended statement at `toi = [1, 2, 4]`. -/
theorem make_trialdef_toi_array_nonuniform_witness :
    ∃ trl', _make_trialdef ⟨Toi.arr [1, 2, 4], 0, 0⟩ [⟨0, 3, 5, []⟩] 100 =
        some (trl', 1, true) := by
  obtain ⟨trl', h, -, -⟩ := make_trialdef_toi_array_nonuniform
    ⟨Toi.arr [1, 2, 4], 0, 0⟩ [⟨0, 3, 5, []⟩] 100 [1, 2, 4] rfl (by norm_num)
    (by norm_num [diffs])
  exact ⟨trl', h⟩

/-- C5 as stated is false on the code: the `"all"` branch never writes
row 0's start column, so for an input table whose first trial starts at
sample 5 the reconciled boundaries are `[[5,100],[100,250],[250,370]]`,
not the claimed cumulative sums `[[0,100],[100,250],[250,370]]`. -/
theorem make_trialdef_all_cumsum_cex :
    ¬ (∀ out ∈ _make_trialdef ⟨Toi.all, 0, 0⟩
          [⟨5, 105, 7, []⟩, ⟨105, 255, 8, []⟩, ⟨255, 375, 9, []⟩] 100,
        out.1.map (fun r => (r.start, r.stop)) =
          [(0, 100), (100, 250), (250, 370)]) := by
  intro h
  have heval : _make_trialdef ⟨Toi.all, 0, 0⟩
      [⟨5, 105, 7, []⟩, ⟨105, 255, 8, []⟩, ⟨255, 375, 9, []⟩] 100 =
      some ([⟨5, 100, 7, []⟩, ⟨100, 250, 8, []⟩, ⟨250, 370, 9, []⟩],
        100, false) := by
    norm_num [_make_trialdef, cumsum, List.zip, List.zipWith, List.range_succ]
  have h2 := h ([⟨5, 100, 7, []⟩, ⟨100, 250, 8, []⟩, ⟨250, 370, 9, []⟩],
    100, false) (by simp [Option.mem_def, heval])
  simp at h2

theorem toiAllRows_length (trl : List TrialRow) :
    (toiAllRows trl).length = trl.length := by
  simp [toiAllRows, List.length_map, List.length_zip]

theorem toiAllRows_getD (trl : List TrialRow) (k : ℕ) (hk : k < trl.length) :
    (toiAllRows trl).getD k default =
      { trl.getD k default with
        start := if k = 0 then (trl.getD k default).start
          else (cumsum (trl.map (fun r => r.stop - r.start))).getD (k - 1) 0
        stop := (cumsum (trl.map (fun r => r.stop - r.start))).getD k 0 } := by
  have hklt : k < (toiAllRows trl).length := by
    rw [toiAllRows_length]
    exact hk
  rw [List.getD_eq_getElem _ _ hklt, List.getD_eq_getElem _ _ hk]
  simp [toiAllRows, List.getElem_map, List.getElem_zip, List.getElem_range]

/-- C5 (amended): under the `"all"` policy `_make_trialdef` keeps the
sampling rate and the trigger offsets, writes the cumulative sums of the
original per-trial lengths into the stop column and into the start
column of every row except row 0, whose start is left at its original
value; hence when the first trial's original start is 0 the boundary
columns are exactly the cumulative sums (for lengths `[100,150,120]`:
`[[0,100],[100,250],[250,370]]`). -/
theorem make_trialdef_toi_all (cfg : TrialdefCfg) (trl : List TrialRow)
    (samplerate : ℚ) (htoi : cfg.toi = Toi.all) :
    ∃ trl', _make_trialdef cfg trl samplerate =
        some (trl', samplerate, false) ∧
      trl'.length = trl.length ∧
      (∀ k, k < trl.length →
        (trl'.getD k default).stop =
          ((trl.map (fun r => r.stop - r.start)).take (k + 1)).sum ∧
        (trl'.getD k default).offset = (trl.getD k default).offset) ∧
      (trl'.getD 0 default).start = (trl.getD 0 default).start ∧
      (∀ k, 0 < k → k < trl.length →
        (trl'.getD k default).start =
          ((trl.map (fun r => r.stop - r.start)).take k).sum) ∧
      ((trl.getD 0 default).start = 0 →
        ∀ k, k < trl.length →
          (trl'.getD k default).start =
            ((trl.map (fun r => r.stop - r.start)).take k).sum) := by
  have hstop : ∀ k, k < trl.length →
      ((toiAllRows trl).getD k default).stop =
        ((trl.map (fun r => r.stop - r.start)).take (k + 1)).sum := by
    intro k hk
    rw [toiAllRows_getD trl k hk]
    show (cumsum (trl.map (fun r => r.stop - r.start))).getD k 0 = _
    rw [cumsum_getD _ _ (by simpa using hk)]
  have hstart : ∀ k, 0 < k → k < trl.length →
      ((toiAllRows trl).getD k default).start =
        ((trl.map (fun r => r.stop - r.start)).take k).sum := by
    intro k hk0 hk
    rw [toiAllRows_getD trl k hk]
    show (if k = 0 then (trl.getD k default).start
        else (cumsum (trl.map (fun r => r.stop - r.start))).getD (k - 1) 0) = _
    rw [if_neg (by omega)]
    rw [cumsum_getD _ _ (by simpa using (by omega : k - 1 < trl.length))]
    congr 2
    omega
  have hstart0 : ((toiAllRows trl).getD 0 default).start =
      (trl.getD 0 default).start := by
    cases trl with
    | nil => rfl
    | cons r t =>
      rw [toiAllRows_getD (r :: t) 0 (by simp)]
      simp
  refine ⟨toiAllRows trl, ?_, toiAllRows_length trl, ?_, hstart0, hstart, ?_⟩
  · simp only [_make_trialdef, htoi]
    rfl
  · intro k hk
    refine ⟨hstop k hk, ?_⟩
    rw [toiAllRows_getD trl k hk]
  · intro hz k hk
    rcases Nat.eq_zero_or_pos k with hk0 | hk0
    · subst hk0
      rw [hstart0, hz]
      simp
    · exact hstart k hk0 hk

/-- Witness for C5's amended statement: three contiguous trials of
lengths 100, 150 and 120 starting at 0. -/
theorem make_trialdef_toi_all_witness :
    ∃ trl', _make_trialdef ⟨Toi.all, 0, 0⟩
        [⟨0, 100, 7, []⟩, ⟨100, 250, 8, []⟩, ⟨250, 370, 9, []⟩] 100 =
        some (trl', 100, false) := by
  obtain ⟨trl', h, -⟩ := make_trialdef_toi_all ⟨Toi.all, 0, 0⟩
    [⟨0, 100, 7, []⟩, ⟨100, 250, 8, []⟩, ⟨250, 370, 9, []⟩] 100 rfl
  exact ⟨trl', h⟩

theorem toiNumRows_length (w : ℚ) (trl : List TrialRow) :
    (toiNumRows w trl).length = trl.length := by
  simp [toiNumRows, List.length_map, List.length_zip, length_cumsum]

theorem toiNumRows_getD (w : ℚ) (trl : List TrialRow) (k : ℕ)
    (hk : k < trl.length) :
    (toiNumRows w trl).getD k default =
      { trl.getD k default with
        start := (cumsum (trl.map
            (fun r => ((⌈(r.stop - r.start) / w⌉ : ℤ) : ℚ)))).getD k 0 -
          ((⌈((trl.getD k default).stop - (trl.getD k default).start) / w⌉ :
            ℤ) : ℚ)
        stop := (cumsum (trl.map
            (fun r => ((⌈(r.stop - r.start) / w⌉ : ℤ) : ℚ)))).getD k 0
        offset := (trl.getD k default).offset / w } := by
  have hklt : k < (toiNumRows w trl).length := by
    rw [toiNumRows_length]
    exact hk
  have hkcs : k < (cumsum (trl.map
      (fun r => ((⌈(r.stop - r.start) / w⌉ : ℤ) : ℚ)))).length := by
    simpa [length_cumsum] using hk
  have hkm : k < (trl.map
      (fun r => ((⌈(r.stop - r.start) / w⌉ : ℤ) : ℚ))).length := by
    simpa using hk
  rw [List.getD_eq_getElem _ _ hklt, List.getD_eq_getElem _ _ hk,
    List.getD_eq_getElem _ _ hkcs]
  simp [toiNumRows, List.getElem_map, List.getElem_zip]

/-- C6: under the scalar-`toi` policy with positive window stride
`winSize = nperseg − noverlap`, `_make_trialdef` gives trial `k` the
output row count `⌈len_k / winSize⌉` (as `stop − start`), writes the
cumulative sums of those counts into the stop column, divides each
trigger offset by `winSize`, and returns the original sampling rate
divided by `winSize` and rounded to 2 decimal digits. -/
theorem make_trialdef_toi_scalar (cfg : TrialdefCfg) (trl : List TrialRow)
    (samplerate x : ℚ) (htoi : cfg.toi = Toi.num x)
    (hwin : 0 < cfg.nperseg - cfg.noverlap) :
    ∃ trl', _make_trialdef cfg trl samplerate =
        some (trl',
          np_round2 (samplerate / (cfg.nperseg - cfg.noverlap)), false) ∧
      trl'.length = trl.length ∧
      ∀ k, k < trl.length →
        (trl'.getD k default).stop - (trl'.getD k default).start =
          ((⌈((trl.getD k default).stop - (trl.getD k default).start) /
              (cfg.nperseg - cfg.noverlap)⌉ : ℤ) : ℚ) ∧
        (trl'.getD k default).stop =
          ((trl.map (fun r => ((⌈(r.stop - r.start) /
              (cfg.nperseg - cfg.noverlap)⌉ : ℤ) : ℚ))).take (k + 1)).sum ∧
        (trl'.getD k default).offset =
          (trl.getD k default).offset / (cfg.nperseg - cfg.noverlap) := by
  refine ⟨toiNumRows (cfg.nperseg - cfg.noverlap) trl, ?_,
    toiNumRows_length _ trl, ?_⟩
  · simp only [_make_trialdef, htoi]
    rfl
  · intro k hk
    rw [toiNumRows_getD _ trl k hk]
    refine ⟨by ring, ?_, rfl⟩
    show (cumsum (trl.map (fun r => ((⌈(r.stop - r.start) /
        (cfg.nperseg - cfg.noverlap)⌉ : ℤ) : ℚ)))).getD k 0 = _
    rw [cumsum_getD _ _ (by simpa using hk)]

/-- Witness for C6: `nperseg = 5`, `noverlap = 3` (stride 2) over a
two-trial table with lengths 5 and 7. -/
theorem make_trialdef_toi_scalar_witness :
    ∃ trl', _make_trialdef ⟨Toi.num 50, 5, 3⟩
        [⟨0, 5, 4, []⟩, ⟨5, 12, 6, []⟩] 100 =
        some (trl', np_round2 (100 / (5 - 3)), false) := by
  obtain ⟨trl', h, -, -⟩ := make_trialdef_toi_scalar ⟨Toi.num 50, 5, 3⟩
    [⟨0, 5, 4, []⟩, ⟨5, 12, 6, []⟩] 100 50 rfl (by norm_num)
  exact ⟨trl', h⟩

/-- C1: for every 2-D trial shape and every fixed parameter assignment
(`foi`, `keeptapers`, `output_fmt`, `method_kwargs` with at least one
taper), the `(shape, dtype)` pair returned by `mtmfft_cF` with
`noCompute = true` equals the shape and dtype of the spectrum array the
same call returns with `noCompute = false`, for both values of
`keeptapers`. -/
theorem mtmfft_cF_plan_matches_execute
    (bestMatch : List ℚ → List ℚ → List ℕ) (trl_dat : Trl2D)
    (foi : List ℚ) (timeAxis : ℕ) (keeptapers : Bool)
    (output_fmt : OutputFmt) (kw : MtmfftKwargs)
    (htaper : 1 ≤ kw.kmax.getD 1) :
    ∃ shp dt arr,
      mtmfft_cF bestMatch trl_dat foi timeAxis keeptapers output_fmt
        true kw = Sum.inl (shp, dt) ∧
      mtmfft_cF bestMatch trl_dat foi timeAxis keeptapers output_fmt
        false kw = Sum.inr arr ∧
      arr.shape = shp ∧ arr.dtype = dt := by
  cases keeptapers with
  | true =>
    refine ⟨_, _, _, rfl, rfl, ?_, rfl⟩
    simp [spectralConversions, mtmfft_backend, Nat.max_eq_right htaper]
  | false =>
    exact ⟨_, _, _, rfl, rfl, rfl, rfl⟩

/-- Witness for C1 at a concrete trial shape, frequency matcher and
parameter set. -/
theorem mtmfft_cF_plan_matches_execute_witness :
    ∃ shp dt arr,
      mtmfft_cF (fun _ _ => [0, 2]) ⟨8, 2⟩ [10] 0 true OutputFmt.pow
        true ⟨none, 1000, some 3⟩ = Sum.inl (shp, dt) ∧
      mtmfft_cF (fun _ _ => [0, 2]) ⟨8, 2⟩ [10] 0 true OutputFmt.pow
        false ⟨none, 1000, some 3⟩ = Sum.inr arr ∧
      arr.shape = shp ∧ arr.dtype = dt :=
  mtmfft_cF_plan_matches_execute (fun _ _ => [0, 2]) ⟨8, 2⟩ [10] 0 true
    OutputFmt.pow ⟨none, 1000, some 3⟩ (by decide)

/-- C7 fails on the code: with 10 requested workers the quorum is
`int(10^0.7) = 5`; when no worker comes up within the timeout,
`client.wait_for_workers` raises `TimeoutError` and
`check_workers_available` has no handler for it, so the call raises
instead of warning and returning normally. -/
theorem check_workers_available_timeout_raises :
    minWorkersOf 10 = 5 ∧
    check_workers_available ⟨10, 0, false⟩ =
      Except.error TimeoutErr.timeout := by
  constructor
  · decide
  · rfl

end Syncopy
